import Mathlib

/-!
# Verification of the scalemail outbound relay core

Shallow embedding of the scalemail source (Go) in Lean 4:

* `emailq/queue.go` — the persistent queue (`Push`, `Pop`, `Retry`, `Kill`,
  `RemoveDelivered`, `Recover`) layered on bolt buckets;
* `main.go` — the grouper `split`, the outcome handlers
  `handleError`/`handleSuccess`;
* `sender/dkim.go` / `sender/connection.go` — the DKIM signer wrapper and
  its caller's unsigned fallback;
* `daemon/daemon.go` — the submission listener's address extraction.

Go byte slices are `List Nat`, Go strings are `List Char`, instants are
`Int` nanoseconds since the Unix epoch, and a time-zone is its offset
east of UTC in minutes.  Bolt buckets are association lists kept in
ascending key order; fallible operations return `Option`.
-/

/-- A Go byte slice (bolt keys and values, message data). -/
abbrev Bytes := List Nat

/-- A Go string, as its character list. -/
abbrev Str := List Char

/-- Byte-wise lexicographic strict order, as `bytes.Compare a b < 0`:
a strict prefix sorts first, otherwise the first differing byte decides. -/
def keyLt : Bytes → Bytes → Bool
  | [], [] => false
  | [], _ :: _ => true
  | _ :: _, [] => false
  | a :: as, b :: bs => if a < b then true else if a = b then keyLt as bs else false

/-- A bolt bucket: an association list from keys to values, kept in
ascending key order with unique keys (bolt's B-tree invariant). -/
abbrev Bucket := List (Bytes × Bytes)

/-- `Bucket.Put`: sorted insert, replacing the value when the key exists. -/
def bput (k : Bytes) (v : Bytes) : Bucket → Bucket
  | [] => [(k, v)]
  | (k', v') :: rest =>
    if keyLt k k' then (k, v) :: (k', v') :: rest
    else if k = k' then (k, v) :: rest
    else (k', v') :: bput k v rest

/-- `Bucket.Get`: first value stored under the key, `none` when absent
(bolt returns `nil`). -/
def bget (k : Bytes) : Bucket → Option Bytes
  | [] => none
  | (k', v') :: rest => if k = k' then some v' else bget k rest

/-- `Bucket.Delete`: remove the entry stored under the key (bolt keys are
unique, so removing every occurrence models it). -/
def bdel (k : Bytes) (b : Bucket) : Bucket :=
  b.filter (fun kv => decide (kv.1 ≠ k))

theorem keyLt_irrefl (a : Bytes) : keyLt a a = false := by
  induction a with
  | nil => rfl
  | cons x xs ih => simp [keyLt, ih]

theorem bdel_cons (k : Bytes) (hd : Bytes × Bytes) (tl : Bucket) :
    bdel k (hd :: tl) = if hd.1 = k then bdel k tl else hd :: bdel k tl := by
  by_cases h : hd.1 = k <;> simp [bdel, List.filter_cons, h]

theorem mem_bput_self (k v : Bytes) (b : Bucket) : (k, v) ∈ bput k v b := by
  induction b with
  | nil => simp [bput]
  | cons hd tl ih =>
    by_cases h2 : k = hd.1
    · subst h2
      simp [bput, keyLt_irrefl]
    · by_cases h1 : keyLt k hd.1 <;> simp [bput, h1, h2, ih]

theorem mem_bput_of_ne {k' v' : Bytes} (k v : Bytes) {b : Bucket}
    (hm : (k', v') ∈ b) (hne : k' ≠ k) : (k', v') ∈ bput k v b := by
  induction b with
  | nil => simp at hm
  | cons hd tl ih =>
    rcases List.mem_cons.mp hm with h | h
    · by_cases h2 : k = hd.1
      · exact absurd ((congrArg Prod.fst h).trans h2.symm) hne
      · by_cases h1 : keyLt k hd.1
        · simp only [bput, h1, if_true]
          exact List.mem_cons_of_mem _ (List.mem_cons.mpr (Or.inl h))
        · simp only [bput, h1, Bool.false_eq_true, if_false, if_neg h2]
          exact List.mem_cons.mpr (Or.inl h)
    · by_cases h2 : k = hd.1
      · subst h2
        simp only [bput, keyLt_irrefl, Bool.false_eq_true, if_false, if_pos rfl]
        exact List.mem_cons.mpr (Or.inr h)
      · by_cases h1 : keyLt k hd.1
        · simp only [bput, h1, if_true]
          exact List.mem_cons_of_mem _ (List.mem_cons_of_mem _ h)
        · simp only [bput, h1, Bool.false_eq_true, if_false, if_neg h2]
          exact List.mem_cons_of_mem _ (ih h)

theorem mem_bput_elim {k' v' k v : Bytes} {b : Bucket}
    (hm : (k', v') ∈ bput k v b) : (k' = k ∧ v' = v) ∨ (k', v') ∈ b := by
  induction b with
  | nil =>
    simp [bput] at hm
    exact Or.inl hm
  | cons hd tl ih =>
    by_cases h2 : k = hd.1
    · subst h2
      simp only [bput, keyLt_irrefl, Bool.false_eq_true, if_false, if_pos rfl] at hm
      rcases List.mem_cons.mp hm with h | h
      · exact Or.inl (by simpa using h)
      · exact Or.inr (List.mem_cons_of_mem _ h)
    · by_cases h1 : keyLt k hd.1
      · simp only [bput, h1, if_true] at hm
        rcases List.mem_cons.mp hm with h | h
        · exact Or.inl (by simpa using h)
        · exact Or.inr h
      · simp only [bput, h1, h2, Bool.false_eq_true, if_false] at hm
        rcases List.mem_cons.mp hm with h | h
        · exact Or.inr (List.mem_cons.mpr (Or.inl h))
        · rcases ih h with h' | h'
          · exact Or.inl h'
          · exact Or.inr (List.mem_cons_of_mem _ h')

theorem bget_bdel_self (k : Bytes) (b : Bucket) : bget k (bdel k b) = none := by
  induction b with
  | nil => rfl
  | cons hd tl ih =>
    rw [bdel_cons]
    by_cases h : hd.1 = k
    · simpa [h] using ih
    · simpa [bget, Ne.symm h, h] using ih

theorem bget_bdel_of_ne {k k' : Bytes} (hne : k' ≠ k) (b : Bucket) :
    bget k' (bdel k b) = bget k' b := by
  induction b with
  | nil => rfl
  | cons hd tl ih =>
    rw [bdel_cons]
    by_cases h : hd.1 = k
    · simpa [h, bget, hne] using ih
    · by_cases h2 : k' = hd.1
      · simp [h, h2, bget]
      · simpa [h, h2, bget] using ih

theorem mem_bdel_elim {kv : Bytes × Bytes} {k : Bytes} {b : Bucket}
    (h : kv ∈ bdel k b) : kv ∈ b :=
  List.mem_of_mem_filter h

theorem mem_bdel_of_ne {kv : Bytes × Bytes} {k : Bytes} {b : Bucket}
    (hm : kv ∈ b) (hne : kv.1 ≠ k) : kv ∈ bdel k b :=
  List.mem_filter.mpr ⟨hm, by simpa using hne⟩

theorem bget_mem {k v : Bytes} {b : Bucket} (h : bget k b = some v) :
    (k, v) ∈ b := by
  induction b with
  | nil => simp [bget] at h
  | cons hd tl ih =>
    unfold bget at h
    by_cases h2 : k = hd.1
    · simp only [h2, if_true, Option.some.injEq] at h
      exact List.mem_cons.mpr (Or.inl (by rw [h2, ← h]))
    · simp only [h2, if_false] at h
      exact List.mem_cons_of_mem _ (ih h)

theorem bget_bput_self (k v : Bytes) (b : Bucket) :
    bget k (bput k v b) = some v := by
  induction b with
  | nil => simp [bput, bget]
  | cons hd tl ih =>
    by_cases h2 : k = hd.1
    · subst h2
      simp [bput, keyLt_irrefl, bget]
    · by_cases h1 : keyLt k hd.1 <;> simp [bput, h1, h2, bget, ih]

/-! ## Go `time` formatting and parsing

Models `time.Format(time.RFC3339Nano)` and `time.Parse(time.RFC3339Nano, s)`
from Go's standard library, as used by the queue for bucket keys.  The
layout is `"2006-01-02T15:04:05.999999999Z07:00"`: the `.999999999`
fraction drops trailing zeros (and the whole fraction when the nanosecond
part is zero), and the zone prints `Z` for UTC and `±hh:mm` otherwise. -/

/-- Nanoseconds per second. -/
def nsPerSec : Nat := 1000000000

/-- Civil date from a day count relative to 1970-01-01 (proleptic
Gregorian), as Go's `absDate` computes it: returns `(year, month, day)`. -/
def civilFromDays (z : Int) : Int × Nat × Nat :=
  let z' := z + 719468
  let era := z'.fdiv 146097
  let doe := (z' - era * 146097).toNat
  let yoe := (doe - doe / 1460 + doe / 36524 - doe / 146096) / 365
  let doy := doe - (365 * yoe + yoe / 4 - yoe / 100)
  let mp := (5 * doy + 2) / 153
  let d := doy - (153 * mp + 2) / 5 + 1
  let m := if mp < 10 then mp + 3 else mp - 9
  (era * 400 + yoe + (if m ≤ 2 then 1 else 0), m, d)

/-- Day count relative to 1970-01-01 of a civil date (inverse of
`civilFromDays` on valid dates). -/
def daysFromCivil (y : Int) (m d : Nat) : Int :=
  let y' := if m ≤ 2 then y - 1 else y
  let era := y'.fdiv 400
  let yoe := (y' - era * 400).toNat
  let mp := if 2 < m then m - 3 else m + 9
  let doy := (153 * mp + 2) / 5 + d - 1
  let doe := yoe * 365 + yoe / 4 - yoe / 100 + doy
  era * 146097 + (doe : Int) - 719468

/-- Two-digit zero-padded decimal, as ASCII bytes. -/
def pad2 (n : Nat) : Bytes := [48 + n / 10 % 10, 48 + n % 10]

/-- Four-digit zero-padded decimal, as ASCII bytes. -/
def pad4 (n : Nat) : Bytes :=
  [48 + n / 1000 % 10, 48 + n / 100 % 10, 48 + n / 10 % 10, 48 + n % 10]

/-- Nine-digit zero-padded decimal, as ASCII bytes. -/
def pad9 (n : Nat) : Bytes :=
  [48 + n / 100000000 % 10, 48 + n / 10000000 % 10, 48 + n / 1000000 % 10,
   48 + n / 100000 % 10, 48 + n / 10000 % 10, 48 + n / 1000 % 10,
   48 + n / 100 % 10, 48 + n / 10 % 10, 48 + n % 10]

/-- The fractional-second part of the `RFC3339Nano` layout: empty when the
nanosecond count is zero, otherwise a dot followed by nine digits with the
trailing zeros removed (Go's `.999999999` format fragment). -/
def fracPart (ns : Nat) : Bytes :=
  if ns = 0 then [] else 46 :: ((pad9 ns).reverse.dropWhile (fun c => c == 48)).reverse

/-- The numeric zone suffix of the layout fragment `Z07:00`: `Z` for UTC,
otherwise a sign and `hh:mm` of the offset (given in minutes east). -/
def zonePart (offMin : Int) : Bytes :=
  if offMin = 0 then [90]
  else (if offMin < 0 then [45] else [43]) ++
    pad2 (offMin.natAbs / 60) ++ [58] ++ pad2 (offMin.natAbs % 60)

/-- `time.Format(time.RFC3339Nano)` of the instant `t` (nanoseconds since
the Unix epoch) displayed in the zone `offMin` minutes east of UTC. -/
def fmtRFC3339Nano (t : Int) (offMin : Int) : Bytes :=
  let w := t + offMin * 60 * (nsPerSec : Int)
  let ns := (w.emod (nsPerSec : Int)).toNat
  let secs := w.fdiv (nsPerSec : Int)
  let sod := (secs.emod 86400).toNat
  let ymd := civilFromDays (secs.fdiv 86400)
  pad4 ymd.1.toNat ++ [45] ++ pad2 ymd.2.1 ++ [45] ++ pad2 ymd.2.2 ++ [84] ++
    pad2 (sod / 3600) ++ [58] ++ pad2 (sod % 3600 / 60) ++ [58] ++
    pad2 (sod % 60) ++ fracPart ns ++ zonePart offMin

/-- Is an ASCII decimal digit. -/
def isDigit (c : Nat) : Bool := 48 ≤ c && c ≤ 57

/-- Reads exactly `n` leading ASCII digits as a number. -/
def readDigits : Nat → Bytes → Option (Nat × Bytes)
  | 0, b => some (0, b)
  | _ + 1, [] => none
  | n + 1, c :: rest =>
    if isDigit c then
      (readDigits n rest).map (fun p => ((c - 48) * 10 ^ n + p.1, p.2))
    else none

/-- Days in a month of a (proleptic Gregorian) year. -/
def daysIn (y : Int) (m : Nat) : Nat :=
  if m = 2 then (if y.emod 4 = 0 ∧ (y.emod 100 ≠ 0 ∨ y.emod 400 = 0) then 29 else 28)
  else if m = 4 ∨ m = 6 ∨ m = 9 ∨ m = 11 then 30
  else 31

/-- Parses the optional fraction: `'.'` followed by at least one digit;
digits beyond the ninth are truncated (Go keeps nanosecond precision). -/
def readFrac (b : Bytes) : Option (Nat × Bytes) :=
  match b with
  | 46 :: rest =>
    let ds := rest.takeWhile isDigit
    if ds.isEmpty then none
    else
      let ns := ((ds.take 9).foldl (fun a c => a * 10 + (c - 48)) 0) *
        10 ^ (9 - min ds.length 9)
      some (ns, rest.dropWhile isDigit)
  | _ => some (0, b)

/-- Parses the zone suffix, returning the offset in minutes east. -/
def readZone (b : Bytes) : Option Int :=
  match b with
  | [90] => some 0
  | s :: h1 :: h2 :: 58 :: m1 :: m2 :: [] =>
    if (s = 43 ∨ s = 45) ∧ isDigit h1 ∧ isDigit h2 ∧ isDigit m1 ∧ isDigit m2 then
      let hh := (h1 - 48) * 10 + (h2 - 48)
      let mm := (m1 - 48) * 10 + (m2 - 48)
      if hh < 24 ∧ mm < 60 then
        some ((if s = 45 then -1 else 1) * ((hh : Int) * 60 + (mm : Int)))
      else none
    else none
  | _ => none

/-- `time.Parse(time.RFC3339Nano, string(k))`: decodes a key back to the
instant it encodes (nanoseconds since the Unix epoch), `none` on a
malformed timestamp. -/
def parseRFC3339Nano (b : Bytes) : Option Int := do
  let (y, r1) ← readDigits 4 b
  let r2 ← match r1 with | 45 :: r => some r | _ => none
  let (mo, r3) ← readDigits 2 r2
  let r4 ← match r3 with | 45 :: r => some r | _ => none
  let (d, r5) ← readDigits 2 r4
  let r6 ← match r5 with | 84 :: r => some r | _ => none
  let (hh, r7) ← readDigits 2 r6
  let r8 ← match r7 with | 58 :: r => some r | _ => none
  let (mi, r9) ← readDigits 2 r8
  let r10 ← match r9 with | 58 :: r => some r | _ => none
  let (ss, r11) ← readDigits 2 r10
  let (ns, r12) ← readFrac r11
  let off ← readZone r12
  if 1 ≤ mo ∧ mo ≤ 12 ∧ 1 ≤ d ∧ d ≤ daysIn y mo ∧ hh < 24 ∧ mi < 60 ∧ ss < 60 then
    some (((daysFromCivil (y : Int) mo d) * 86400 +
      (hh : Int) * 3600 + (mi : Int) * 60 + (ss : Int) - off * 60) *
      (nsPerSec : Int) + (ns : Int))
  else none

example : fmtRFC3339Nano 0 0 = "1970-01-01T00:00:00Z".data.map Char.toNat := by decide
example : fmtRFC3339Nano 500000000 0 =
    "1970-01-01T00:00:00.5Z".data.map Char.toNat := by decide
example : parseRFC3339Nano (fmtRFC3339Nano 0 0) = some 0 := by decide
example : parseRFC3339Nano (fmtRFC3339Nano 500000000 0) = some 500000000 := by decide

/-! ## The envelope and its serialization

`emailq.Msg` is the stored envelope.  The queue serializes it with
`encoding/gob`; gob is modelled by its contract — an injective,
self-describing byte serialization whose decoder, in `decode`, ignores
any error and leaves the pre-declared zero `Msg` in place
(`queue.go` ignores `decoder.Decode`'s return value). -/

namespace emailq

/-- `emailq.Msg` — the email message stored by the queue. -/
structure Msg where
  Host : Str
  From : Str
  To : List Str
  Data : Bytes
  Retry : Nat
deriving DecidableEq, Repr

/-- The zero value of `Msg` (`var result Msg` in `decode`). -/
def zeroMsg : Msg := ⟨[], [], [], [], 0⟩

/-- Serializes a string: its length then its character codes. -/
def encStr (s : Str) : Bytes := s.length :: s.map Char.toNat

/-- Serializes a byte slice: its length then its bytes. -/
def encBytes (b : Bytes) : Bytes := b.length :: b

/-- `encode` — gob-serializes a `Msg` field by field. -/
def encode (m : Msg) : Bytes :=
  encStr m.Host ++ encStr m.From ++
    (m.To.length :: (m.To.map encStr).flatten) ++ encBytes m.Data ++ [m.Retry]

/-- Reads a length-prefixed string. -/
def readStr : Bytes → Option (Str × Bytes)
  | [] => none
  | n :: rest =>
    if n ≤ rest.length then
      some ((rest.take n).map Char.ofNat, rest.drop n)
    else none

/-- Reads `n` length-prefixed strings. -/
def readStrs : Nat → Bytes → Option (List Str × Bytes)
  | 0, b => some ([], b)
  | n + 1, b => do
    let (s, r) ← readStr b
    let (ss, r') ← readStrs n r
    some (s :: ss, r')

/-- Reads a length-prefixed byte slice. -/
def readBytes : Bytes → Option (Bytes × Bytes)
  | [] => none
  | n :: rest => if n ≤ rest.length then some (rest.take n, rest.drop n) else none

/-- The fallible part of deserialization. -/
def decodeField (b : Bytes) : Option Msg := do
  let (host, r1) ← readStr b
  let (src, r2) ← readStr r1
  let nTo ← r2.head?
  let (tos, r3) ← readStrs nTo r2.tail
  let (data, r4) ← readBytes r3
  match r4 with
  | [retry] => some ⟨host, src, tos, data, retry⟩
  | _ => none

/-- `decode` — deserializes a stored value.  The error returned by the gob
decoder is discarded, so a malformed value yields the zero `Msg`; `decode`
is total. -/
def decode (b : Bytes) : Msg := (decodeField b).getD zeroMsg

theorem readStr_enc (s : Str) (r : Bytes) : readStr (encStr s ++ r) = some (s, r) := by
  have hlen : (s.map Char.toNat).length = s.length := by simp
  have hle : s.length ≤ (s.map Char.toNat ++ r).length := by simp
  simp only [encStr, List.cons_append, readStr, dif_pos hle]
  rw [List.take_append_of_le_length (by simp), List.drop_append_of_le_length (by simp)]
  simp [List.take_of_length_le (le_of_eq hlen), List.drop_of_length_le (le_of_eq hlen)]
  ext c
  simp [Char.ofNat_toNat]

theorem readStrs_enc (l : List Str) (r : Bytes) :
    readStrs l.length ((l.map encStr).flatten ++ r) = some (l, r) := by
  induction l generalizing r with
  | nil => simp [readStrs]
  | cons s tl ih =>
    simp only [List.length_cons, List.map_cons, List.flatten_cons, List.append_assoc,
      readStrs]
    rw [readStr_enc]
    simp [ih r]

theorem readBytes_enc (b : Bytes) (r : Bytes) :
    readBytes (encBytes b ++ r) = some (b, r) := by
  simp only [encBytes, List.cons_append, readBytes, if_pos (by simp : b.length ≤ (b ++ r).length)]
  rw [List.take_append_of_le_length le_rfl, List.drop_append_of_le_length le_rfl]
  simp

/-- gob round-trip: decoding an encoded envelope restores every field. -/
theorem decode_encode (m : Msg) : decode (encode m) = m := by
  unfold decode decodeField encode
  simp only [List.append_assoc, List.cons_append]
  rw [readStr_enc]
  simp only [Option.bind_eq_bind, Option.some_bind]
  rw [readStr_enc]
  simp only [Option.some_bind, List.head?_cons, List.tail_cons]
  rw [readStrs_enc]
  simp only [Option.some_bind]
  rw [readBytes_enc]
  simp

/-! ## The queue (`emailq/queue.go`)

The three bolt buckets form the queue state; every operation is one bolt
`Update` transaction, so it is modelled as a pure function from state to
state (an error rolls the transaction back, returning `none` and leaving
the state unchanged).  `time.Now()` is passed in as the instant `now`;
the server's local zone (used by `Retry`, which formats a `time.Time`
that was never converted to UTC) is the parameter `offMin`. -/

/-- The queue: the *incoming*, *outgoing* and *deadletter* buckets. -/
structure QState where
  incoming : Bucket
  outgoing : Bucket
  dead : Bucket
deriving DecidableEq, Repr

/-- `Push` — key is `time.Now().UTC().Format(time.RFC3339Nano)` (zone 0),
value is the gob encoding; insert into *incoming*. -/
def Push (now : Int) (msg : Msg) (st : QState) : QState :=
  { st with incoming := bput (fmtRFC3339Nano now 0) (encode msg) st.incoming }

/-- `Pop` — take the first (lexicographically smallest) *incoming* entry;
none ⇒ `(nil, nil)`; parse its key (a parse error aborts the transaction,
modelled by the outer `none`); a future instant ⇒ `(nil, nil)`; otherwise
delete it from *incoming*, insert it under the same key into *outgoing*,
and return a copy of the key with the decoded envelope. -/
def Pop (now : Int) (st : QState) : Option (Option (Bytes × Msg) × QState) :=
  match st.incoming.head? with
  | none => some (none, st)
  | some (k, v) =>
    match parseRFC3339Nano k with
    | none => none
    | some t =>
      if now < t then some (none, st)
      else some (some (k, decode v),
        { st with incoming := bdel k st.incoming, outgoing := bput k v st.outgoing })

/-- `Retry` — fetch the *outgoing* entry (error when absent), delete it,
increment the decoded envelope's `Retry`, and reinsert into *incoming*
under `time.Now().Add(Retry·Retry·2 minutes)` formatted in the local zone
(the code calls `time.Now()` without `.UTC()`). -/
def Retry (now offMin : Int) (key : Bytes) (st : QState) : Option QState :=
  match bget key st.outgoing with
  | none => none
  | some v =>
    let m := decode v
    let m' := { m with Retry := m.Retry + 1 }
    let t := now + ((m'.Retry * m'.Retry * 2 : Nat) : Int) * 60 * (nsPerSec : Int)
    some { st with
      outgoing := bdel key st.outgoing,
      incoming := bput (fmtRFC3339Nano t offMin) (encode m') st.incoming }

/-- `Kill` — move the *outgoing* entry (error when absent) to the
dead-letter bucket under the same key. -/
def Kill (key : Bytes) (st : QState) : Option QState :=
  match bget key st.outgoing with
  | none => none
  | some v =>
    some { st with outgoing := bdel key st.outgoing, dead := bput key v st.dead }

/-- `RemoveDelivered` — delete the key from *outgoing* (bolt's `Delete`
succeeds whether or not the key is present). -/
def RemoveDelivered (key : Bytes) (st : QState) : QState :=
  { st with outgoing := bdel key st.outgoing }

/-- The loop of `Recover`: repeatedly take the first *outgoing* entry,
delete it, and reinsert its value into *incoming* under a fresh
`time.Now().UTC()` key; `clock i` is the instant the `i`-th call of
`time.Now()` returns. -/
def recoverLoop (clock : Nat → Int) : Nat → Bucket → Bucket → Bucket
  | _, [], incoming => incoming
  | i, (_, v) :: rest, incoming =>
    recoverLoop clock (i + 1) rest (bput (fmtRFC3339Nano (clock i) 0) v incoming)

/-- `Recover` — drain *outgoing* into *incoming* under fresh `now()` keys
(value bytes moved untouched; the envelope is never decoded). -/
def Recover (clock : Nat → Int) (st : QState) : QState :=
  { st with
    outgoing := []
    incoming := recoverLoop clock 0 st.outgoing st.incoming }

end emailq

/-! ## The submission listener (`daemon/daemon.go`) -/

namespace daemon

/-- `daemon.Msg` — the submitted message handed to the relay. -/
structure Msg where
  From : Str
  To : List Str
  Data : Bytes
deriving DecidableEq, Repr

/-- Whether a capture matches the regular expression `.+@.+`: an `@` with
at least one character on each side, and no newline (Go's `.` does not
match a newline). -/
def goodCapture (cap : Str) : Bool :=
  !cap.contains '\n' && (cap.drop 1).dropLast.contains '@'

/-- The largest end position `p` such that `t` has `>` at `p` and
`t.take p` matches `.+@.+` — the end chosen by the greedy `.+`s. -/
def bestEnd (t : Str) : Option Nat :=
  (List.range t.length).reverse.find?
    (fun p => t.get? p == some '>' && goodCapture (t.take p))

/-- The submatch of the leftmost match of `<(.+@.+)>` in `s`, as
`regexp.FindStringSubmatch` locates it. -/
def findAddr : Str → Option Str
  | [] => none
  | c :: rest =>
    if c = '<' then
      match bestEnd rest with
      | some p => some (rest.take p)
      | none => findAddr rest
    else findAddr rest

/-- `parseAddr` — extract the first `<...@...>` address from an SMTP
command line; the empty string when the regex does not match. -/
def parseAddr (s : Str) : Str := (findAddr s).getD []

/-- Any address extracted by `parseAddr` contains an `@`. -/
theorem parseAddr_contains_at {s m : Str} (h : findAddr s = some m) :
    m.contains '@' = true := by
  induction s with
  | nil => simp [findAddr] at h
  | cons c rest ih =>
    unfold findAddr at h
    by_cases hc : c = '<'
    · simp only [hc, if_true] at h
      cases hb : bestEnd rest with
      | none =>
        rw [hb] at h
        exact ih h
      | some p =>
        rw [hb] at h
        simp only [Option.some.injEq] at h
        subst h
        have := List.find?_some hb
        have hg : goodCapture (rest.take p) = true := by
          revert this
          simp [Bool.and_eq_true]
        unfold goodCapture at hg
        simp only [Bool.and_eq_true] at hg
        have := hg.2
        rcases List.contains_iff_exists_mem_beq.mp this with ⟨a, ha, hb2⟩
        have hx : a ∈ List.drop 1 (List.take p rest) := List.mem_of_mem_dropLast ha
        exact List.contains_iff_exists_mem_beq.mpr ⟨a, List.mem_of_mem_drop hx, hb2⟩
    · simp only [hc, if_false] at h
      exact ih h

end daemon

/-! ## The grouper and outcome handlers (`main.go`) -/

namespace mainsrc

/-- `strings.Split(s, "@")`: the fields of `s` between occurrences of
`@` (a trailing separator yields a final empty field). -/
def splitAmp : Str → List Str
  | [] => [[]]
  | c :: rest =>
    if c = '@' then [] :: splitAmp rest
    else
      match splitAmp rest with
      | s :: ss => (c :: s) :: ss
      | [] => [[c]]

/-- `strings.Split(to, "@")[1]` — `none` models the index-out-of-range
panic when the address has no `@`. -/
def hostOf (rcpt : Str) : Option Str := (splitAmp rcpt).get? 1

/-- The host actually used for bucketing, totalized. -/
def hostSure (rcpt : Str) : Str := ((splitAmp rcpt).get? 1).getD []

/-- `hostMap[host] = append(hostMap[host], to)` on the insertion-ordered
association list modelling the Go map. -/
def upsert (hm : List (Str × List Str)) (host : Str) (rcpt : Str) :
    List (Str × List Str) :=
  match hm with
  | [] => [(host, [rcpt])]
  | (h, ts) :: rest =>
    if h = host then (h, ts ++ [rcpt]) :: rest else (h, ts) :: upsert rest host rcpt

/-- The first loop of `split`: build `hostMap`, bucketing each recipient
by `strings.Split(to, "@")[1]`; `none` models the panic on a recipient
without `@`. -/
def buildHostMap : List Str → List (Str × List Str) → Option (List (Str × List Str))
  | [], hm => some hm
  | rcpt :: rest, hm =>
    match hostOf rcpt with
    | none => none
    | some h => buildHostMap rest (upsert hm h rcpt)

/-- `split` — groups a submitted message into one `emailq.Msg` per
destination host (the `Retry` field is left at its zero value). -/
def split (msg : daemon.Msg) : Option (List emailq.Msg) :=
  (buildHostMap msg.To []).map (fun hm =>
    hm.map (fun hv =>
      { Host := hv.1, From := msg.From, To := hv.2, Data := msg.Data,
        Retry := 0 : emailq.Msg }))

/-- `handleError` — failed delivery: `Kill` at the retry cap of 6,
`Retry` otherwise (queue errors are logged and leave the state as the
rolled-back transaction left it). -/
def handleError (key : Bytes) (msg : emailq.Msg) (now offMin : Int)
    (st : emailq.QState) : emailq.QState :=
  if msg.Retry = 6 then (emailq.Kill key st).getD st
  else (emailq.Retry now offMin key st).getD st

/-- `handleSuccess` — successful delivery: `RemoveDelivered`. -/
def handleSuccess (key : Bytes) (st : emailq.QState) : emailq.QState :=
  emailq.RemoveDelivered key st

end mainsrc

/-! ## The DKIM signer wrapper (`sender/dkim.go`) and its caller -/

namespace sender

/-- Behaviour of one invocation of the third-party primitive
`dkim.Sign`: it returns `nil`, returns an error, or faults. -/
inductive DkimOutcome
  | ok
  | errored
  | panicked
deriving DecidableEq, Repr

/-- `Signer.Sign` — runs `dkim.Sign` under a deferred `recover`.  A fault
is caught and logged, and the function then returns normally; its result
is an unnamed return value, so the recovered path returns the zero value
`nil` (`none`).  No fault propagates past the wrapper. -/
def signerSign (primitive : DkimOutcome) : Option Unit :=
  match primitive with
  | .ok => none
  | .errored => some ()
  | .panicked => none

/-- `Connection.Send`'s fallback test: the unsigned payload is written
exactly when no signer is configured or `Signer.Sign` returned a non-nil
error. -/
def sendWritesUnsigned (signerConfigured : Bool) (primitive : DkimOutcome) : Bool :=
  !signerConfigured || (signerSign primitive).isSome

end sender

/-! ## Supporting lemmas -/

theorem keyLt_asymm : ∀ a b : Bytes, keyLt a b = true → keyLt b a = false
  | [], [] => by simp [keyLt]
  | [], _ :: _ => by simp [keyLt]
  | _ :: _, [] => by simp [keyLt]
  | a :: as, b :: bs => by
    simp only [keyLt]
    by_cases h1 : a < b
    · intro _
      have hba : ¬ b < a := by omega
      have hne : b ≠ a := by omega
      simp [hba, hne]
    · by_cases h2 : a = b
      · subst h2
        simp only [if_neg (lt_irrefl a), if_pos rfl]
        exact keyLt_asymm as bs
      · simp [h1, h2]

theorem headMem {a : Bytes × Bytes} {l : Bucket} (h : l.head? = some a) : a ∈ l := by
  cases l with
  | nil => simp at h
  | cons x xs =>
    simp only [List.head?_cons, Option.some.injEq] at h
    rw [← h]
    exact List.mem_cons_self x xs

theorem popEqNil {now : Int} {st : emailq.QState} (h : st.incoming.head? = none) :
    emailq.Pop now st = some (none, st) := by
  simp only [emailq.Pop, h]

theorem popEqBad {now : Int} {st : emailq.QState} {k v : Bytes}
    (h : st.incoming.head? = some (k, v)) (hp : parseRFC3339Nano k = none) :
    emailq.Pop now st = none := by
  simp only [emailq.Pop, h, hp]

theorem popEqWait {now t : Int} {st : emailq.QState} {k v : Bytes}
    (h : st.incoming.head? = some (k, v)) (hp : parseRFC3339Nano k = some t)
    (hf : now < t) : emailq.Pop now st = some (none, st) := by
  simp only [emailq.Pop, h, hp, if_pos hf]

theorem popEqMove {now t : Int} {st : emailq.QState} {k v : Bytes}
    (h : st.incoming.head? = some (k, v)) (hp : parseRFC3339Nano k = some t)
    (hf : ¬ now < t) : emailq.Pop now st = some (some (k, emailq.decode v),
      { st with incoming := bdel k st.incoming, outgoing := bput k v st.outgoing }) := by
  simp only [emailq.Pop, h, hp, if_neg hf]

/-! ## Claim C1 — Retry backoff -/

/-- C1 (counterexample): for an envelope with retry counter 0, `Retry` at
instant 0 (UTC zone) does NOT reinsert under the key encoding
`now + 1·1 minutes`; the inserted key encodes `now + 2 minutes`, because
the code computes `Retry·Retry·2` minutes. -/
theorem c1_retry_backoff_counterexample :
    (emailq.Retry 0 0 [107]
        ⟨[], [([107], emailq.encode emailq.zeroMsg)], []⟩).map
        (fun st' => (bget (fmtRFC3339Nano (60 * 1000000000) 0) st'.incoming,
          bget (fmtRFC3339Nano (120 * 1000000000) 0) st'.incoming)) =
      some (none, some (emailq.encode
        { emailq.zeroMsg with Retry := 1 })) := by decide

/-- C1 (amended): for every key `k` in *outgoing* whose stored envelope has
retry counter `r`, `Retry` increments the counter to `n = r + 1` and
reinserts the re-encoded envelope into *incoming* under a key encoding the
instant `now + 2·n·n minutes` (in the server's local zone), measured from
the time `Retry` is called; the old key leaves *outgoing* and the
dead-letter bucket is untouched. -/
theorem c1_retry_backoff (now offMin : Int) (key v : Bytes) (st : emailq.QState)
    (hv : bget key st.outgoing = some v) :
    ∃ st', emailq.Retry now offMin key st = some st' ∧
      bget key st'.outgoing = none ∧
      bget (fmtRFC3339Nano
          (now + ((((emailq.decode v).Retry + 1) * ((emailq.decode v).Retry + 1) * 2 : Nat) : Int)
            * 60 * (nsPerSec : Int)) offMin) st'.incoming =
        some (emailq.encode { emailq.decode v with Retry := (emailq.decode v).Retry + 1 }) ∧
      st'.dead = st.dead := by
  unfold emailq.Retry
  rw [hv]
  exact ⟨_, rfl, bget_bdel_self key st.outgoing, bget_bput_self _ _ _, rfl⟩

/-- C1 (witness). -/
theorem c1_retry_backoff_witness :
    ∃ st', emailq.Retry 0 0 [107]
        ⟨[], [([107], emailq.encode emailq.zeroMsg)], []⟩ = some st' ∧
      bget [107] st'.outgoing = none ∧
      bget (fmtRFC3339Nano
          (0 + ((((emailq.decode (emailq.encode emailq.zeroMsg)).Retry + 1) *
            ((emailq.decode (emailq.encode emailq.zeroMsg)).Retry + 1) * 2 : Nat) : Int)
            * 60 * (nsPerSec : Int)) 0) st'.incoming =
        some (emailq.encode { emailq.decode (emailq.encode emailq.zeroMsg) with
          Retry := (emailq.decode (emailq.encode emailq.zeroMsg)).Retry + 1 }) ∧
      st'.dead = [] :=
  c1_retry_backoff 0 0 [107] (emailq.encode emailq.zeroMsg)
    ⟨[], [([107], emailq.encode emailq.zeroMsg)], []⟩ (by decide)

/-! ## Claim C2 — the signer wrapper swallows the fault -/

/-- C2 (code bug): when the third-party `dkim.Sign` panics, the deferred
`recover` in `Signer.Sign` does catch the fault, but the function then
returns the zero value of its unnamed `error` result — `nil`, not a
non-nil error — so `Connection.Send`'s test `Sign(...) != nil` does NOT
take the unsigned fallback, contrary to the claim (and to the spec's
requirement that the wrapper return a normal error).  Evaluates the
wrapper at the failing input. -/
theorem c2_signer_panic_returns_nil :
    sender.signerSign .panicked = none ∧
    sender.sendWritesUnsigned true .panicked = false ∧
    sender.sendWritesUnsigned true .errored = true := ⟨rfl, rfl, rfl⟩

/-! ## Claim C8 — the failure handler's Kill / Retry / RemoveDelivered choice -/

/-- C8: for a delivery failure on `(key, msg)` with the key in *outgoing*,
`handleError` performs `Queue.Kill key` exactly when `msg.Retry = 6`
(MaxRetries) and `Queue.Retry key` in every other case, and both succeed;
a successful delivery performs `Queue.RemoveDelivered key` instead. -/
theorem c8_failure_handler (key : Bytes) (msg : emailq.Msg) (now offMin : Int)
    (st : emailq.QState) (v : Bytes) (hv : bget key st.outgoing = some v) :
    (msg.Retry = 6 → ∃ st', emailq.Kill key st = some st' ∧
      mainsrc.handleError key msg now offMin st = st') ∧
    (msg.Retry ≠ 6 → ∃ st', emailq.Retry now offMin key st = some st' ∧
      mainsrc.handleError key msg now offMin st = st') ∧
    mainsrc.handleSuccess key st = emailq.RemoveDelivered key st := by
  refine ⟨fun h6 => ?_, fun h6 => ?_, rfl⟩
  · unfold mainsrc.handleError emailq.Kill
    rw [if_pos h6, hv]
    exact ⟨_, rfl, rfl⟩
  · unfold mainsrc.handleError emailq.Retry
    rw [if_neg h6, hv]
    exact ⟨_, rfl, rfl⟩

/-- C8 (witness): a retry-capped envelope is killed, an uncapped one is
retried, at a concrete state. -/
theorem c8_failure_handler_witness :
    ({ emailq.zeroMsg with Retry := 6 }.Retry = 6 → ∃ st',
      emailq.Kill [107] ⟨[], [([107], [9])], []⟩ = some st' ∧
      mainsrc.handleError [107] { emailq.zeroMsg with Retry := 6 } 0 0
        ⟨[], [([107], [9])], []⟩ = st') ∧
    ({ emailq.zeroMsg with Retry := 6 }.Retry ≠ 6 → ∃ st',
      emailq.Retry 0 0 [107] ⟨[], [([107], [9])], []⟩ = some st' ∧
      mainsrc.handleError [107] { emailq.zeroMsg with Retry := 6 } 0 0
        ⟨[], [([107], [9])], []⟩ = st') ∧
    mainsrc.handleSuccess [107] ⟨[], [([107], [9])], []⟩ =
      emailq.RemoveDelivered [107] ⟨[], [([107], [9])], []⟩ :=
  c8_failure_handler [107] { emailq.zeroMsg with Retry := 6 } 0 0
    ⟨[], [([107], [9])], []⟩ [9] (by decide)

/-! ## Claim C3 — the key invariant -/

/-- C3 (counterexample): the claimed invariant fails twice on concrete
inputs.  (a) Two `Push`es at instants 0 and 0.5s store keys
`1970-01-01T00:00:00Z` and `1970-01-01T00:00:00.5Z`; the cursor (head)
of *incoming* then holds the key of the strictly LATER instant, because
`RFC3339Nano` trims trailing fractional zeros and `.` sorts before `Z` —
lexicographic key order is not earliest-eligible-first.  (b) With the
server in zone UTC+2, `Retry` formats its new key with `time.Now()`
(never converted to UTC), so the stored key differs from the UTC encoding
of its instant. -/
theorem c3_key_invariant_counterexample :
    ((emailq.Push 500000000 emailq.zeroMsg
        (emailq.Push 0 emailq.zeroMsg ⟨[], [], []⟩)).incoming.map Prod.fst =
      [fmtRFC3339Nano 500000000 0, fmtRFC3339Nano 0 0] ∧
      (0 : Int) < 500000000) ∧
    ((emailq.Retry 0 120 [107]
        ⟨[], [([107], emailq.encode emailq.zeroMsg)], []⟩).map
        (fun st' => st'.incoming.map Prod.fst) =
      some [fmtRFC3339Nano (120 * 1000000000) 120] ∧
      fmtRFC3339Nano (120 * 1000000000) 120 ≠
        fmtRFC3339Nano (120 * 1000000000) 0) := by decide

/-- A key is the `RFC3339Nano` encoding of some instant, either in UTC
(`Push`, `Recover`) or in the server's local zone (`Retry`). -/
def WFKey (offMin : Int) (k : Bytes) : Prop :=
  ∃ t : Int, k = fmtRFC3339Nano t 0 ∨ k = fmtRFC3339Nano t offMin

/-- Every key of every partition is a well-formed timestamp key. -/
def KeysWF (offMin : Int) (st : emailq.QState) : Prop :=
  (∀ kv ∈ st.incoming, WFKey offMin kv.1) ∧
  (∀ kv ∈ st.outgoing, WFKey offMin kv.1) ∧
  (∀ kv ∈ st.dead, WFKey offMin kv.1)

theorem recoverLoop_mem_elim {clock : Nat → Int} {i : Nat} {out inc : Bucket}
    {kv : Bytes × Bytes} (h : kv ∈ emailq.recoverLoop clock i out inc) :
    kv ∈ inc ∨ ∃ j, kv.1 = fmtRFC3339Nano (clock j) 0 := by
  induction out generalizing i inc with
  | nil => exact Or.inl h
  | cons hd rest ih =>
    obtain ⟨k0, v0⟩ := hd
    simp only [emailq.recoverLoop] at h
    rcases ih h with h' | h'
    · obtain ⟨kv1, kv2⟩ := kv
      rcases mem_bput_elim h' with ⟨hk, _⟩ | h''
      · exact Or.inr ⟨i, hk⟩
      · exact Or.inl h''
    · exact Or.inr h'

/-- C3 (amended): every key stored in any partition by `Push`, `Pop`,
`Retry`, `Kill`, `RemoveDelivered` and `Recover` is its envelope's
scheduled-eligible instant encoded as an RFC3339 timestamp with
nanosecond precision — in UTC for keys minted by `Push` and `Recover`,
but in the server's local zone for keys minted by `Retry` — and, because
trailing fractional zeros are trimmed and zone suffixes differ,
lexicographic key order over a partition does not in general equal
earliest-eligible-first order of the encoded instants. -/
theorem c3_key_invariant (offMin now : Int) (msg : emailq.Msg) (key : Bytes)
    (clock : Nat → Int) (st : emailq.QState) (hwf : KeysWF offMin st) :
    KeysWF offMin (emailq.Push now msg st) ∧
    (∀ r st', emailq.Pop now st = some (r, st') → KeysWF offMin st') ∧
    (∀ st', emailq.Retry now offMin key st = some st' → KeysWF offMin st') ∧
    (∀ st', emailq.Kill key st = some st' → KeysWF offMin st') ∧
    KeysWF offMin (emailq.RemoveDelivered key st) ∧
    KeysWF offMin (emailq.Recover clock st) := by
  obtain ⟨hin, hout, hdead⟩ := hwf
  refine ⟨⟨?_, hout, hdead⟩, ?_, ?_, ?_, ⟨hin, ?_, hdead⟩, ⟨?_, ?_, hdead⟩⟩
  · intro kv hkv
    rcases mem_bput_elim (by exact hkv) with ⟨hk, _⟩ | h
    · exact ⟨now, Or.inl (by rw [hk])⟩
    · exact hin kv h
  · intro r st' hpop
    cases hh : st.incoming.head? with
    | none =>
      rw [popEqNil hh] at hpop
      simp only [Option.some.injEq, Prod.mk.injEq] at hpop
      rw [← hpop.2]
      exact ⟨hin, hout, hdead⟩
    | some kv0 =>
      obtain ⟨k0, v0⟩ := kv0
      have hmem : (k0, v0) ∈ st.incoming := headMem hh
      cases hp : parseRFC3339Nano k0 with
      | none =>
        rw [popEqBad hh hp] at hpop
        cases hpop
      | some t =>
        by_cases hfut : now < t
        · rw [popEqWait hh hp hfut] at hpop
          simp only [Option.some.injEq, Prod.mk.injEq] at hpop
          rw [← hpop.2]
          exact ⟨hin, hout, hdead⟩
        · rw [popEqMove hh hp hfut] at hpop
          simp only [Option.some.injEq, Prod.mk.injEq] at hpop
          rw [← hpop.2]
          refine ⟨?_, ?_, hdead⟩
          · intro kv hkv
            exact hin kv (mem_bdel_elim hkv)
          · intro kv hkv
            obtain ⟨kv1, kv2⟩ := kv
            rcases mem_bput_elim hkv with ⟨hk, _⟩ | h
            · rw [hk]
              exact hin (k0, v0) hmem
            · exact hout (kv1, kv2) h
  · intro st' hret
    unfold emailq.Retry at hret
    cases hg : bget key st.outgoing with
    | none => rw [hg] at hret; cases hret
    | some v =>
      rw [hg] at hret
      cases hret
      refine ⟨?_, ?_, hdead⟩
      · intro kv hkv
        rcases mem_bput_elim (by exact hkv) with ⟨hk, _⟩ | h
        · exact ⟨_, Or.inr (by rw [hk])⟩
        · exact hin kv h
      · intro kv hkv
        exact hout kv (mem_bdel_elim hkv)
  · intro st' hkill
    unfold emailq.Kill at hkill
    cases hg : bget key st.outgoing with
    | none => rw [hg] at hkill; cases hkill
    | some v =>
      rw [hg] at hkill
      cases hkill
      refine ⟨hin, ?_, ?_⟩
      · intro kv hkv
        exact hout kv (mem_bdel_elim hkv)
      · intro kv hkv
        rcases mem_bput_elim (by exact hkv) with ⟨hk, _⟩ | h
        · rw [hk]
          exact hout (key, v) (bget_mem hg)
        · exact hdead kv h
  · intro kv hkv
    exact hout kv (mem_bdel_elim hkv)
  · intro kv hkv
    rcases recoverLoop_mem_elim hkv with h | ⟨j, hj⟩
    · exact hin kv h
    · exact ⟨clock j, Or.inl hj⟩
  · intro kv hkv
    simp [emailq.Recover] at hkv

/-- C3 (witness). -/
theorem c3_key_invariant_witness :
    KeysWF 0 (emailq.Push 0 emailq.zeroMsg ⟨[], [], []⟩) :=
  (c3_key_invariant 0 0 emailq.zeroMsg [] (fun _ => 0) ⟨[], [], []⟩
    ⟨by simp, by simp, by simp⟩).1

/-! ## Claim C4 — Pop -/

/-- C4: `Pop` on an empty *incoming* returns `(nil, nil)` with the state
unchanged; when the head key (the lexicographically smallest key of the
sorted *incoming* bucket) decodes to a future instant, `Pop` returns
`(nil, nil)` with both partitions unchanged; otherwise `Pop`, in one
transaction, deletes that key from *incoming*, inserts the same key and
bytes into *outgoing*, and returns a copy of the key with the decoded
envelope — the resulting state is exactly the full move. -/
theorem c4_pop_behaviour (now : Int) (st : emailq.QState) :
    (st.incoming = [] → emailq.Pop now st = some (none, st)) ∧
    (∀ k v rest, st.incoming = (k, v) :: rest →
      (List.Pairwise (fun a b => keyLt a.1 b.1 = true) st.incoming →
        ∀ kv ∈ st.incoming, kv.1 = k ∨ keyLt kv.1 k = false) ∧
      (∀ t, parseRFC3339Nano k = some t → now < t →
        emailq.Pop now st = some (none, st)) ∧
      (∀ t, parseRFC3339Nano k = some t → ¬ now < t →
        emailq.Pop now st = some (some (k, emailq.decode v),
          { st with
            incoming := bdel k st.incoming
            outgoing := bput k v st.outgoing }))) := by
  refine ⟨fun h => popEqNil (by rw [h]; rfl), fun k v rest hi => ⟨?_, ?_, ?_⟩⟩
  · intro hsorted kv hkv
    rw [hi] at hkv hsorted
    rcases List.mem_cons.mp hkv with h | h
    · exact Or.inl (congrArg Prod.fst h)
    · have := (List.pairwise_cons.mp hsorted).1 kv h
      exact Or.inr (keyLt_asymm _ _ this)
  · intro t hp hfut
    exact popEqWait (by rw [hi]; rfl) hp hfut
  · intro t hp hfut
    exact popEqMove (by rw [hi]; rfl) hp hfut

/-- C4 (witness): a due head is moved in full at a concrete state. -/
theorem c4_pop_behaviour_witness :
    emailq.Pop 5 ⟨[(fmtRFC3339Nano 0 0, [9])], [], [([104], [7])]⟩ =
      some (some (fmtRFC3339Nano 0 0, emailq.decode [9]),
        { incoming := bdel (fmtRFC3339Nano 0 0) [(fmtRFC3339Nano 0 0, [9])]
          outgoing := bput (fmtRFC3339Nano 0 0) [9] []
          dead := [([104], [7])] }) := by
  have h := ((c4_pop_behaviour 5 ⟨[(fmtRFC3339Nano 0 0, [9])], [], [([104], [7])]⟩).2
    (fmtRFC3339Nano 0 0) [9] [] rfl).2.2 0 (by decide) (by decide)
  exact h

/-! ## Claim C9 — deserialization is total and never surfaces an error -/

/-- C9: `decode` discards any decoding failure — it is total, and a value
that `decodeField` cannot parse decodes to the zero-valued envelope — so
`Retry` fails only when the key is absent from *outgoing* (never on a
malformed record), `Pop` moves an arbitrary (even corrupted) value
between the partitions as if it were a valid envelope, and `Recover`
never fails (it moves raw bytes and leaves *outgoing* empty). -/
theorem c9_decode_total (st : emailq.QState) (now offMin : Int)
    (key v k : Bytes) (rest : Bucket) (clock : Nat → Int) :
    (emailq.decode v = (emailq.decodeField v).getD emailq.zeroMsg) ∧
    (emailq.decodeField v = none → emailq.decode v = emailq.zeroMsg) ∧
    (emailq.Retry now offMin key st = none ↔ bget key st.outgoing = none) ∧
    (st.incoming = (k, v) :: rest →
      ∀ t, parseRFC3339Nano k = some t → ¬ now < t →
        emailq.Pop now st = some (some (k, emailq.decode v),
          { st with
            incoming := bdel k st.incoming
            outgoing := bput k v st.outgoing })) ∧
    ((emailq.Recover clock st).outgoing = []) := by
  refine ⟨rfl, fun h => by simp [emailq.decode, h], ?_, ?_, rfl⟩
  · constructor
    · intro h
      cases hg : bget key st.outgoing with
      | none => rfl
      | some v0 =>
        unfold emailq.Retry at h
        rw [hg] at h
        cases h
    · intro h
      unfold emailq.Retry
      rw [h]
  · intro hi t hp hfut
    exact popEqMove (by rw [hi]; rfl) hp hfut

/-- C9 (witness): the concrete corrupted value `[255]` decodes to the
zero envelope and is still moved `incoming → outgoing` by `Pop`. -/
theorem c9_decode_total_witness :
    emailq.decodeField [255] = none → emailq.decode [255] = emailq.zeroMsg :=
  (c9_decode_total ⟨[(fmtRFC3339Nano 0 0, [255])], [], []⟩ 5 0
    [107] [255] (fmtRFC3339Nano 0 0) [] (fun _ => 0)).2.1

/-! ## Claim C5 — Recover -/

theorem recoverLoop_preserves {clock : Nat → Int} {kv : Bytes × Bytes} :
    ∀ {i : Nat} {out inc : Bucket}, kv ∈ inc →
      (∀ j, i ≤ j → j < i + out.length → fmtRFC3339Nano (clock j) 0 ≠ kv.1) →
      kv ∈ emailq.recoverLoop clock i out inc := by
  intro i out
  induction out generalizing i with
  | nil => intro inc h _; exact h
  | cons hd rest ih =>
    intro inc h hne
    obtain ⟨k0, v0⟩ := hd
    obtain ⟨kv1, kv2⟩ := kv
    simp only [emailq.recoverLoop]
    refine ih ?_ ?_
    · exact mem_bput_of_ne _ _ h
        (fun he => hne i le_rfl (by (try simp only [List.length_cons] at *); omega) (by rw [he]))
    · intro j hj1 hj2
      exact hne j (Nat.le_of_succ_le hj1)
        (by (try simp only [List.length_cons] at *); omega)

theorem recoverLoop_moves {clock : Nat → Int} {kv : Bytes × Bytes} :
    ∀ {i : Nat} {out inc : Bucket}, kv ∈ out →
      (∀ j j', i ≤ j → j < i + out.length → i ≤ j' → j' < i + out.length →
        j ≠ j' → fmtRFC3339Nano (clock j) 0 ≠ fmtRFC3339Nano (clock j') 0) →
      ∃ j, i ≤ j ∧ j < i + out.length ∧
        (fmtRFC3339Nano (clock j) 0, kv.2) ∈ emailq.recoverLoop clock i out inc := by
  intro i out
  induction out generalizing i with
  | nil => intro inc h _; simp at h
  | cons hd rest ih =>
    intro inc hm hfresh
    obtain ⟨k0, v0⟩ := hd
    rcases List.mem_cons.mp hm with h | h
    · refine ⟨i, le_rfl, by (try simp only [List.length_cons] at *); omega, ?_⟩
      simp only [emailq.recoverLoop]
      have hv2 : kv.2 = v0 := congrArg Prod.snd h
      rw [hv2]
      refine recoverLoop_preserves (mem_bput_self _ _ _) ?_
      intro j hj1 hj2 he
      exact hfresh j i (Nat.le_of_succ_le hj1)
        (by (try simp only [List.length_cons] at *); omega)
        le_rfl (by (try simp only [List.length_cons] at *); omega) (by omega) he
    · simp only [emailq.recoverLoop]
      obtain ⟨j, hj1, hj2, hj3⟩ := ih h (fun j j' a b c d e =>
        hfresh j j' (Nat.le_of_succ_le a)
          (by (try simp only [List.length_cons] at *); omega)
          (Nat.le_of_succ_le c)
          (by (try simp only [List.length_cons] at *); omega) e)
      exact ⟨j, Nat.le_of_succ_le hj1,
        by (try simp only [List.length_cons] at *); omega, hj3⟩

/-- C5: provided the freshly minted `now()` keys are pairwise distinct and
distinct from every key already in *outgoing* (what distinct nanosecond
readings of the clock give), `Recover` leaves *outgoing* empty and
re-inserts each envelope that was in *outgoing* into *incoming* under a
freshly generated `now()` key different from its original key, with the
value bytes — hence the decoded `From`, `To`, `Host`, `Data` and `Retry`
fields — preserved bit-for-bit. -/
theorem c5_recover (st : emailq.QState) (clock : Nat → Int)
    (hfresh : ∀ j j', j < st.outgoing.length → j' < st.outgoing.length →
      j ≠ j' → fmtRFC3339Nano (clock j) 0 ≠ fmtRFC3339Nano (clock j') 0)
    (hnew : ∀ j, j < st.outgoing.length →
      ∀ kv ∈ st.outgoing, fmtRFC3339Nano (clock j) 0 ≠ kv.1) :
    (emailq.Recover clock st).outgoing = [] ∧
    ∀ kv ∈ st.outgoing, ∃ j, j < st.outgoing.length ∧
      fmtRFC3339Nano (clock j) 0 ≠ kv.1 ∧
      (fmtRFC3339Nano (clock j) 0, kv.2) ∈ (emailq.Recover clock st).incoming := by
  refine ⟨rfl, fun kv hkv => ?_⟩
  obtain ⟨j, hj1, hj2, hj3⟩ := @recoverLoop_moves clock kv 0 st.outgoing st.incoming
    hkv (fun j j' a b c d e => hfresh j j' (by simpa using b) (by simpa using d) e)
  exact ⟨j, by simpa using hj2, hnew j (by simpa using hj2) kv hkv, hj3⟩

/-- C5 (witness): recovery of a single interrupted envelope at a
concrete state. -/
theorem c5_recover_witness :
    (emailq.Recover (fun i => (i : Int))
      ⟨[], [([107], [9])], []⟩).outgoing = [] ∧
    ∀ kv ∈ (⟨[], [([107], [9])], []⟩ : emailq.QState).outgoing, ∃ j,
      j < (⟨[], [([107], [9])], []⟩ : emailq.QState).outgoing.length ∧
      fmtRFC3339Nano ((fun i => (i : Int)) j) 0 ≠ kv.1 ∧
      (fmtRFC3339Nano ((fun i => (i : Int)) j) 0, kv.2) ∈
        (emailq.Recover (fun i => (i : Int)) ⟨[], [([107], [9])], []⟩).incoming := by
  have h := c5_recover ⟨[], [([107], [9])], []⟩ (fun i => (i : Int))
    (fun j j' hj hj' hne => absurd (show j = j' by
      simp only [emailq.QState.outgoing, List.length_cons, List.length_nil] at hj hj'
      omega) hne)
    (by
      intro j hj kv hkv
      have hj0 : j = 0 := by
        simp only [emailq.QState.outgoing, List.length_cons, List.length_nil] at hj
        omega
      subst hj0
      simp only [emailq.QState.outgoing, List.mem_singleton] at hkv
      subst hkv
      decide)
  exact h

/-! ## Claim C6 — Push/Pop round-trip -/

/-- C6: pushing an envelope onto an empty *incoming* and popping with the
head eligible (`now' ≥ now`, and the minted key parses back to `now`, as
`time.Parse` does on `time.Format` output) returns exactly the pushed
envelope: every field — `Host`, `From`, `To` (same elements, same order),
`Data` bytes and `Retry` — survives the gob+key round-trip. -/
theorem c6_push_pop_roundtrip (e : emailq.Msg) (now now' : Int)
    (st : emailq.QState) (hinc : st.incoming = [])
    (hparse : parseRFC3339Nano (fmtRFC3339Nano now 0) = some now)
    (he : ¬ now' < now) :
    emailq.Pop now' (emailq.Push now e st) =
      some (some (fmtRFC3339Nano now 0, e),
        { st with
          incoming := []
          outgoing := bput (fmtRFC3339Nano now 0) (emailq.encode e) st.outgoing }) := by
  have hhead : (emailq.Push now e st).incoming.head? =
      some (fmtRFC3339Nano now 0, emailq.encode e) := by
    simp only [emailq.Push, hinc, bput, List.head?_cons]
  rw [popEqMove hhead hparse he, emailq.decode_encode]
  simp [emailq.Push, hinc, bput, bdel]

/-- C6 (witness): a concrete two-recipient envelope round-trips. -/
theorem c6_push_pop_roundtrip_witness :
    emailq.Pop 7 (emailq.Push 0
      ⟨"h".data, "a".data, ["x@h".data, "y@h".data], [1, 2], 0⟩
      ⟨[], [([104], [7])], []⟩) =
      some (some (fmtRFC3339Nano 0 0,
        ⟨"h".data, "a".data, ["x@h".data, "y@h".data], [1, 2], 0⟩),
        { incoming := []
          outgoing := bput (fmtRFC3339Nano 0 0)
            (emailq.encode ⟨"h".data, "a".data, ["x@h".data, "y@h".data], [1, 2], 0⟩)
            [([104], [7])]
          dead := [] }) := by
  have h := c6_push_pop_roundtrip
    ⟨"h".data, "a".data, ["x@h".data, "y@h".data], [1, 2], 0⟩ 0 7
    ⟨[], [([104], [7])], []⟩ rfl (by decide) (by decide)
  exact h

/-! ## Grouper lemmas (for C7 and C10) -/

namespace mainsrc

theorem splitAmp_ne_nil (s : Str) : splitAmp s ≠ [] := by
  cases s with
  | nil => simp [splitAmp]
  | cons c rest =>
    unfold splitAmp
    by_cases h : c = '@'
    · simp [h]
    · simp only [h, if_false]
      cases hs : splitAmp rest with
      | nil => simp
      | cons a l => simp

theorem splitAmp_len_ge_two {s : Str} (h : s.contains '@' = true) :
    2 ≤ (splitAmp s).length := by
  induction s with
  | nil => exact absurd h (by decide)
  | cons c rest ih =>
    unfold splitAmp
    by_cases hc : c = '@'
    · simp only [hc, if_true, List.length_cons]
      have := splitAmp_ne_nil rest
      have : 1 ≤ (splitAmp rest).length := by
        cases hs : splitAmp rest with
        | nil => exact absurd hs this
        | cons a l => simp
      omega
    · have hr : rest.contains '@' = true := by
        rcases List.contains_iff_exists_mem_beq.mp h with ⟨a, ha, hb⟩
        have : c ≠ '@' := hc
        have ha' : a ∈ rest := by
          rcases List.mem_cons.mp ha with h' | h'
          · exfalso
            rw [h'] at hb
            exact hc (eq_of_beq hb).symm
          · exact h'
        exact List.contains_iff_exists_mem_beq.mpr ⟨a, ha', hb⟩
      simp only [hc, if_false]
      cases hs : splitAmp rest with
      | nil => exact absurd hs (splitAmp_ne_nil rest)
      | cons a l =>
        have := ih hr
        rw [hs] at this
        simpa using this

theorem hostOf_isSome {rcpt : Str} (h : rcpt.contains '@' = true) :
    (hostOf rcpt).isSome = true := by
  unfold hostOf
  have h2 := splitAmp_len_ge_two h
  rw [Option.isSome_iff_ne_none]
  intro hn
  rw [List.get?_eq_none] at hn
  omega

theorem hostSure_of_hostOf {rcpt h : Str} (hh : hostOf rcpt = some h) :
    hostSure rcpt = h := by
  unfold hostSure
  unfold hostOf at hh
  rw [hh]
  rfl

theorem keys_upsert (hm : List (Str × List Str)) (h' : Str) (rcpt : Str) :
    (upsert hm h' rcpt).map Prod.fst =
      if h' ∈ hm.map Prod.fst then hm.map Prod.fst
      else hm.map Prod.fst ++ [h'] := by
  induction hm with
  | nil => simp [upsert]
  | cons hd rest ih =>
    obtain ⟨h0, ts0⟩ := hd
    unfold upsert
    by_cases he : h0 = h'
    · subst he
      simp
    · simp only [he, if_false, List.map_cons, ih]
      by_cases hmem : h' ∈ rest.map Prod.fst
      · simp [hmem, Ne.symm he]
      · simp [hmem, Ne.symm he, he]

theorem nodup_keys_upsert {hm : List (Str × List Str)} (h' : Str) (rcpt : Str)
    (hnd : (hm.map Prod.fst).Nodup) :
    ((upsert hm h' rcpt).map Prod.fst).Nodup := by
  rw [keys_upsert]
  by_cases hmem : h' ∈ hm.map Prod.fst
  · simpa [hmem] using hnd
  · simp only [hmem, if_false]
    rw [List.nodup_append]
    exact ⟨hnd, List.nodup_singleton h', by simpa using hmem⟩

theorem mem_upsert_elim {hm : List (Str × List Str)} {h h' : Str}
    {ts : List Str} {rcpt : Str} (hnd : (hm.map Prod.fst).Nodup)
    (hmem : (h, ts) ∈ upsert hm h' rcpt) :
    (h ≠ h' ∧ (h, ts) ∈ hm) ∨
    (h = h' ∧ ((∃ old, (h', old) ∈ hm ∧ ts = old ++ [rcpt]) ∨
      (h' ∉ hm.map Prod.fst ∧ ts = [rcpt]))) := by
  induction hm with
  | nil =>
    simp only [upsert, List.mem_singleton, Prod.mk.injEq] at hmem
    exact Or.inr ⟨hmem.1, Or.inr ⟨by simp, hmem.2⟩⟩
  | cons hd rest ih =>
    obtain ⟨h0, ts0⟩ := hd
    simp only [List.map_cons, List.nodup_cons] at hnd
    unfold upsert at hmem
    by_cases he : h0 = h'
    · subst he
      simp only [if_pos rfl] at hmem
      rcases List.mem_cons.mp hmem with hc | hc
      · simp only [Prod.mk.injEq] at hc
        exact Or.inr ⟨hc.1, Or.inl ⟨ts0, List.mem_cons_self _ _, hc.2⟩⟩
      · left
        constructor
        · intro heq
          subst heq
          exact hnd.1 (List.mem_map.mpr ⟨(h, ts), hc, rfl⟩)
        · exact List.mem_cons_of_mem _ hc
    · simp only [he, if_false] at hmem
      rcases List.mem_cons.mp hmem with hc | hc
      · simp only [Prod.mk.injEq] at hc
        left
        refine ⟨?_, List.mem_cons.mpr (Or.inl (by simp [hc.1, hc.2]))⟩
        rw [hc.1]
        exact he
      · rcases ih hnd.2 hc with ⟨hne, hmm⟩ | ⟨heq, hrest⟩
        · exact Or.inl ⟨hne, List.mem_cons_of_mem _ hmm⟩
        · refine Or.inr ⟨heq, ?_⟩
          rcases hrest with ⟨old, hold, hts⟩ | ⟨hnin, hts⟩
          · exact Or.inl ⟨old, List.mem_cons_of_mem _ hold, hts⟩
          · refine Or.inr ⟨?_, hts⟩
            simp only [List.map_cons, List.mem_cons]
            rintro (hx | hx)
            · exact he hx.symm
            · exact hnin hx

theorem buildHostMap_append (l1 l2 : List Str) (hm : List (Str × List Str)) :
    buildHostMap (l1 ++ l2) hm =
      (buildHostMap l1 hm).bind (fun hm' => buildHostMap l2 hm') := by
  induction l1 generalizing hm with
  | nil => simp only [List.nil_append, buildHostMap, Option.some_bind]
  | cons a l ih =>
    simp only [List.cons_append, buildHostMap]
    cases ha : hostOf a with
    | none => simp [ha]
    | some h => simp [ha, ih]

end mainsrc

namespace mainsrc

theorem mem_upsert_of_ne {hm : List (Str × List Str)} {h h' : Str}
    {ts : List Str} (rcpt : Str) (hmem : (h, ts) ∈ hm) (hne : h ≠ h') :
    (h, ts) ∈ upsert hm h' rcpt := by
  induction hm with
  | nil => simp at hmem
  | cons hd rest ih =>
    obtain ⟨h0, ts0⟩ := hd
    unfold upsert
    by_cases he : h0 = h'
    · subst he
      rcases List.mem_cons.mp hmem with hc | hc
      · exfalso
        exact hne (by simpa using congrArg Prod.fst hc)
      · simp only [if_pos rfl]
        exact List.mem_cons_of_mem _ hc
    · simp only [he, if_false]
      rcases List.mem_cons.mp hmem with hc | hc
      · exact List.mem_cons.mpr (Or.inl hc)
      · exact List.mem_cons_of_mem _ (ih hc)

theorem upsert_key_mem (hm : List (Str × List Str)) (h' : Str) (rcpt : Str) :
    ∃ ts, (h', ts) ∈ upsert hm h' rcpt := by
  induction hm with
  | nil => exact ⟨[rcpt], by simp [upsert]⟩
  | cons hd rest ih =>
    obtain ⟨h0, ts0⟩ := hd
    unfold upsert
    by_cases he : h0 = h'
    · subst he
      exact ⟨ts0 ++ [rcpt], by simp⟩
    · simp only [he, if_false]
      obtain ⟨ts, hts⟩ := ih
      exact ⟨ts, List.mem_cons_of_mem _ hts⟩

theorem upsert_entry_append {hm : List (Str × List Str)} {h' : Str}
    {old : List Str} (rcpt : Str) (hnd : (hm.map Prod.fst).Nodup)
    (hmem : (h', old) ∈ hm) : (h', old ++ [rcpt]) ∈ upsert hm h' rcpt := by
  induction hm with
  | nil => simp at hmem
  | cons hd rest ih =>
    obtain ⟨h0, ts0⟩ := hd
    simp only [List.map_cons, List.nodup_cons] at hnd
    unfold upsert
    by_cases he : h0 = h'
    · subst he
      rcases List.mem_cons.mp hmem with hc | hc
      · simp only [Prod.mk.injEq] at hc
        simp [hc.2]
      · exfalso
        exact hnd.1 (List.mem_map.mpr ⟨(h0, old), hc, rfl⟩)
    · simp only [he, if_false]
      rcases List.mem_cons.mp hmem with hc | hc
      · exfalso
        have hx : h' = h0 := by simpa using congrArg Prod.fst hc
        exact he hx.symm
      · exact List.mem_cons_of_mem _ (ih hnd.2 hc)

/-- The full characterization of the grouper's host map. -/
theorem buildHostMap_spec (tos : List Str)
    (hpre : ∀ rcpt ∈ tos, (hostOf rcpt).isSome = true) :
    ∃ hm, buildHostMap tos [] = some hm ∧
      (hm.map Prod.fst).Nodup ∧
      (∀ h, (∃ ts, (h, ts) ∈ hm) ↔ h ∈ tos.map hostSure) ∧
      (∀ h ts, (h, ts) ∈ hm →
        ts = tos.filter (fun rcpt => decide (hostSure rcpt = h))) := by
  induction tos using List.reverseRecOn with
  | nil => exact ⟨[], rfl, by simp, by simp, by simp⟩
  | append_singleton tos rcpt ih =>
    have hpre' : ∀ r ∈ tos, (hostOf r).isSome = true :=
      fun r hr => hpre r (List.mem_append.mpr (Or.inl hr))
    obtain ⟨hm, hbm, hnd, hkeys, hcont⟩ := ih hpre'
    have hrc : (hostOf rcpt).isSome = true := hpre rcpt (by simp)
    obtain ⟨h', hh'⟩ := Option.isSome_iff_exists.mp hrc
    have hsure : hostSure rcpt = h' := hostSure_of_hostOf hh'
    refine ⟨upsert hm h' rcpt, ?_, nodup_keys_upsert h' rcpt hnd, ?_, ?_⟩
    · rw [buildHostMap_append, hbm]
      simp [buildHostMap, hh']
    · intro h
      constructor
      · rintro ⟨ts, hts⟩
        rcases mem_upsert_elim hnd hts with ⟨_, hmm⟩ | ⟨heq, _⟩
        · have := (hkeys h).mp ⟨ts, hmm⟩
          simp only [List.map_append, List.mem_append]
          exact Or.inl this
        · subst heq
          simp [hsure]
      · intro hh
        simp only [List.map_append, List.map_cons, List.map_nil, List.mem_append,
          List.mem_singleton] at hh
        rcases hh with hh | hh
        · obtain ⟨ts, hts⟩ := (hkeys h).mpr hh
          by_cases he : h = h'
          · subst he
            exact ⟨ts ++ [rcpt], upsert_entry_append rcpt hnd hts⟩
          · exact ⟨ts, mem_upsert_of_ne rcpt hts he⟩
        · rw [hh, hsure]
          exact upsert_key_mem hm h' rcpt
    · intro h ts hts
      rw [List.filter_append]
      rcases mem_upsert_elim hnd hts with ⟨hne, hmm⟩ | ⟨heq, hrest⟩
      · have hfil : [rcpt].filter (fun r => decide (hostSure r = h)) = [] := by
          simp [hsure, Ne.symm hne]
        rw [hfil, List.append_nil]
        exact hcont h ts hmm
      · subst heq
        have hfil : [rcpt].filter (fun r => decide (hostSure r = h)) = [rcpt] := by
          simp [hsure]
        rw [hfil]
        rcases hrest with ⟨old, hold, htseq⟩ | ⟨hnin, htseq⟩
        · rw [htseq, hcont h old hold]
        · rw [htseq]
          have hnotin : h ∉ tos.map hostSure := by
            intro hcon
            obtain ⟨ts0, hts0⟩ := (hkeys h).mpr hcon
            exact hnin (List.mem_map.mpr ⟨(h, ts0), hts0, rfl⟩)
          have hfil0 : tos.filter (fun r => decide (hostSure r = h)) = [] := by
            rw [List.filter_eq_nil_iff]
            intro r hr hd
            rw [decide_eq_true_iff] at hd
            exact hnotin (List.mem_map.mpr ⟨r, hr, hd⟩)
          rw [hfil0]
          rfl

end mainsrc

/-! ## Claim C7 — the grouper -/

/-- Spec-side definition, following C7's wording only: the substring of an
address after the FIRST `@` (to be compared with what the code computes,
`strings.Split(to, "@")[1]`, the field between the first and second `@`). -/
def afterFirstAtSpec (s : Str) : Str := (s.dropWhile (fun c => !(c == '@'))).drop 1

/-- C7 (counterexample): for the recipient `u@h@x` the code buckets under
`strings.Split(to, "@")[1] = "h"`, while the claim's bucketing key — the
substring after the first `@` — is `"h@x"`. -/
theorem c7_grouper_counterexample :
    (mainsrc.split ⟨"s".data, ["u@h@x".data], [3]⟩).map
        (fun outs => outs.map (fun o => o.Host)) = some ["h".data] ∧
    afterFirstAtSpec "u@h@x".data = "h@x".data ∧
    "h".data ≠ "h@x".data := by decide

/-- C7 (amended): for every submission whose recipients each contain an
`@`, the grouper buckets the `To` addresses by the SECOND field of the
`@`-split (the substring between the first and second `@`; equal to the
substring after the first `@` whenever the address has exactly one `@`)
and emits exactly one envelope per distinct such host — pairwise distinct
hosts, one output per input host — each sharing the submission's `From`
and `Data`, with each output's `To` equal to the input recipients of that
host in input order. -/
theorem c7_grouper (msg : daemon.Msg)
    (hpre : ∀ rcpt ∈ msg.To, (mainsrc.hostOf rcpt).isSome = true) :
    ∃ outs, mainsrc.split msg = some outs ∧
      (∀ o ∈ outs, o.From = msg.From ∧ o.Data = msg.Data ∧ o.Retry = 0 ∧
        o.To = msg.To.filter (fun rcpt => decide (mainsrc.hostSure rcpt = o.Host))) ∧
      (∀ h : Str, h ∈ msg.To.map mainsrc.hostSure ↔ ∃ o ∈ outs, o.Host = h) ∧
      outs.Pairwise (fun a b => a.Host ≠ b.Host) := by
  obtain ⟨hm, hbm, hnd, hkeys, hcont⟩ := mainsrc.buildHostMap_spec msg.To hpre
  refine ⟨hm.map (fun hv => (⟨hv.1, msg.From, hv.2, msg.Data, 0⟩ : emailq.Msg)),
    ?_, ?_, ?_, ?_⟩
  · unfold mainsrc.split
    rw [hbm]
    rfl
  · intro o ho
    obtain ⟨hv, hhv, heq⟩ := List.mem_map.mp ho
    subst heq
    exact ⟨rfl, rfl, rfl, hcont hv.1 hv.2 (by simpa using hhv)⟩
  · intro h
    constructor
    · intro hh
      obtain ⟨ts, hts⟩ := (hkeys h).mpr hh
      exact ⟨_, List.mem_map.mpr ⟨(h, ts), hts, rfl⟩, rfl⟩
    · rintro ⟨o, ho, hoh⟩
      obtain ⟨hv, hhv, heq⟩ := List.mem_map.mp ho
      apply (hkeys h).mp
      have hx : hv.1 = h := by rw [← heq] at hoh; exact hoh
      refine ⟨hv.2, ?_⟩
      rw [← hx]
      simpa using hhv
  · have hp : hm.Pairwise (fun a b => a.1 ≠ b.1) := List.pairwise_map.mp hnd
    rw [List.pairwise_map]
    exact hp.imp (fun hab => by simpa using hab)

/-- C7 (witness): the spec's grouping scenario
`To = [a@h1, b@h2, c@h1]` at concrete inputs. -/
theorem c7_grouper_witness :
    ∃ outs, mainsrc.split
        ⟨"s".data, ["a@h1".data, "b@h2".data, "c@h1".data], [7]⟩ = some outs ∧
      (∀ o ∈ outs, o.From = "s".data ∧ o.Data = [7] ∧ o.Retry = 0 ∧
        o.To = ["a@h1".data, "b@h2".data, "c@h1".data].filter
          (fun rcpt => decide (mainsrc.hostSure rcpt = o.Host))) ∧
      (∀ h : Str, h ∈ ["a@h1".data, "b@h2".data, "c@h1".data].map mainsrc.hostSure ↔
        ∃ o ∈ outs, o.Host = h) ∧
      outs.Pairwise (fun a b => a.Host ≠ b.Host) := by
  have h := c7_grouper
    ⟨"s".data, ["a@h1".data, "b@h2".data, "c@h1".data], [7]⟩ (by decide)
  exact h

/-! ## Claim C10 — grouper partiality -/

theorem buildHostMap_total : ∀ (tos : List Str) (hm : List (Str × List Str)),
    (∀ rcpt ∈ tos, (mainsrc.hostOf rcpt).isSome = true) →
    (mainsrc.buildHostMap tos hm).isSome = true
  | [], _, _ => rfl
  | rcpt :: rest, hm, hpre => by
    unfold mainsrc.buildHostMap
    cases hh : mainsrc.hostOf rcpt with
    | none => exact absurd (hpre rcpt (List.mem_cons_self _ _)) (by simp [hh])
    | some h =>
      simp only
      exact buildHostMap_total rest _ (fun r hr => hpre r (List.mem_cons_of_mem _ hr))

/-- C10: the grouper is total precisely under the precondition that every
recipient contains an `@` — which the submission listener's address regex
`<(.+@.+)>` guarantees for every address it extracts — and on an input
with a recipient lacking `@` it faults (index out of range on
`strings.Split(to, "@")[1]`, modelled by `none`) instead of returning a
result. -/
theorem c10_grouper_partiality :
    (∀ msg : daemon.Msg, (∀ rcpt ∈ msg.To, rcpt.contains '@' = true) →
      (mainsrc.split msg).isSome = true) ∧
    mainsrc.split ⟨"s".data, ["noat".data], []⟩ = none ∧
    (∀ s : Str, daemon.parseAddr s ≠ [] →
      (daemon.parseAddr s).contains '@' = true) := by
  refine ⟨?_, by decide, ?_⟩
  · intro msg hpre
    have htot := buildHostMap_total msg.To []
      (fun r hr => mainsrc.hostOf_isSome (hpre r hr))
    unfold mainsrc.split
    cases hb : mainsrc.buildHostMap msg.To [] with
    | none =>
      rw [hb] at htot
      exact absurd htot (by simp)
    | some hm => simp
  · intro s hne
    unfold daemon.parseAddr at hne ⊢
    cases hf : daemon.findAddr s with
    | none => simp [hf] at hne
    | some m =>
      simp only [hf, Option.getD_some]
      exact daemon.parseAddr_contains_at hf

/-- C10 (witness): totality on a concrete good submission and the regex
guarantee on a concrete `MAIL FROM` line. -/
theorem c10_grouper_partiality_witness :
    (mainsrc.split ⟨"s".data, ["a@b".data], []⟩).isSome = true ∧
    (daemon.parseAddr "MAIL FROM:<a@b>".data).contains '@' = true :=
  ⟨c10_grouper_partiality.1 ⟨"s".data, ["a@b".data], []⟩ (by decide),
   c10_grouper_partiality.2.2 "MAIL FROM:<a@b>".data (by decide)⟩
